import Mathlib

/-!
Shallow embedding of `src/exercises/conversions/from_str.rs`
(`impl FromStr for Person`, function `from_str`).

Strings (`&str`) are modelled as `List Char`.  The Rust vector produced by
`s.split(',').collect()` is modelled as a `List (List Char)`, with
`Vec::pop` modelled by `List.getLast?` / `List.dropLast` and panicking
index access `attributes[i]` modelled by `List.getElem?` whose `none`
branch goes to a distinguished `panicked` outcome.  `str::parse::<usize>`
is modelled by `parseUsize` below, following Rust's integer parsing
grammar: an optional leading plus sign, then one or more ASCII digits,
failing on overflow past `usize::MAX` (the 64-bit value `2 ^ 64 - 1`).
-/

namespace FromStr

/-- Rust struct `MyError { details: String }`. -/
structure MyError where
  details : String
deriving DecidableEq

/-- Rust `MyError::new(msg)`. -/
def MyError.new (msg : String) : MyError := ⟨msg⟩

/-- Rust struct `Person { name: String, age: usize }`; `usize` is modelled
as `Nat` (the parser enforces the 64-bit bound). -/
structure Person where
  name : List Char
  age : Nat
deriving DecidableEq

/-- Outcome of a call to `from_str`: `Ok`, `Err`, or a panic (the latter is
proved unreachable). -/
inductive ParseResult where
  | ok (p : Person)
  | err (e : MyError)
  | panicked
deriving DecidableEq

/-- `true` unless the result is an `Err`. -/
def ParseResult.isErr : ParseResult → Bool
  | .err _ => true
  | _ => false

/-- `true` unless the call panicked. -/
def ParseResult.noPanic : ParseResult → Bool
  | .panicked => false
  | _ => true

/-- Rust `s.split(',')` (collected): splits on every comma, preserving
empty segments; the empty string yields one empty segment. -/
def splitComma : List Char → List (List Char)
  | [] => [[]]
  | c :: cs =>
    if c = ',' then
      [] :: splitComma cs
    else
      match splitComma cs with
      | [] => [[c]]
      | p :: ps => (c :: p) :: ps

/-- ASCII digit test, as in Rust's `char::to_digit(10)` used by integer
parsing. -/
def isAsciiDigit (c : Char) : Bool := '0' ≤ c && c ≤ '9'

/-- Numeric value of an ASCII digit, `none` on any other character. -/
def digitVal (c : Char) : Option Nat :=
  if isAsciiDigit c then some (c.toNat - '0'.toNat) else none

/-- One more than `usize::MAX` on the 64-bit platform the exercise runs on. -/
def USIZE_BOUND : Nat := 2 ^ 64

/-- Digit-accumulation loop of Rust's `from_str_radix` (radix 10): consume
digits left to right, failing on a non-digit or on overflow past
`usize::MAX`. -/
def parseDigitsAux : List Char → Nat → Option Nat
  | [], acc => some acc
  | c :: cs, acc =>
    match digitVal c with
    | none => none
    | some d =>
      if acc * 10 + d < USIZE_BOUND then parseDigitsAux cs (acc * 10 + d)
      else none

/-- Rust `str::parse::<usize>()`: empty input fails; an optional leading
`'+'` is allowed (but `"+"` alone fails); a `'-'` or any other non-digit
fails inside the digit loop. -/
def parseUsize (l : List Char) : Option Nat :=
  match l with
  | [] => none
  | c :: cs =>
    if c = '+' then
      if cs = [] then none else parseDigitsAux cs 0
    else
      parseDigitsAux (c :: cs) 0

/-- Mathematical value of a digit string (used only in specifications, to
state what "the integer value of the digits" is). -/
def digitsVal (l : List Char) : Nat :=
  l.foldl (fun acc c => acc * 10 + (c.toNat - '0'.toNat)) 0

/-- Rust `Person::from_str`, line by line: length-zero check, split on
commas, exact-two-segments check, emptiness checks on `attributes[0]` and
`attributes[1]`, `pop` of the age segment and `parse::<usize>`, `pop` of
the name segment (with a redundant second emptiness check), and finally
construction of the `Person`. -/
def from_str (s : List Char) : ParseResult :=
  if s.length = 0 then .err (MyError.new "Boom")
  else
    let attributes := splitComma s
    if attributes.length ≠ 2 then .err (MyError.new "Boom")
    else
      match attributes[0]? with
      | none => .panicked
      | some a0 =>
        if a0.length = 0 then .err (MyError.new "Boom")
        else
          match attributes[1]? with
          | none => .panicked
          | some a1 =>
            if a1.length = 0 then .err (MyError.new "Boom")
            else
              match attributes.getLast? with
              | none => .err (MyError.new "Boom")
              | some a =>
                match parseUsize a with
                | none => .err (MyError.new "Boom")
                | some x =>
                  match attributes.dropLast.getLast? with
                  | none => .err (MyError.new "Boom")
                  | some n =>
                    if n.length = 0 then .err (MyError.new "Boom")
                    else .ok ⟨n, x⟩

/-- Rust unit test `good_input`. -/
theorem test_good_input : from_str "John,32".data = .ok ⟨"John".data, 32⟩ := by decide

/-- Rust unit test `empty_input`. -/
theorem test_empty_input : from_str "".data = .err (MyError.new "Boom") := by decide

/-- Rust unit test `missing_age`. -/
theorem test_missing_age : from_str "John,".data = .err (MyError.new "Boom") := by decide

/-- Rust unit test `missing_name`. -/
theorem test_missing_name : from_str ",1".data = .err (MyError.new "Boom") := by decide

/-- Rust unit test `invalid_age`. -/
theorem test_invalid_age :
    from_str "John,twenty".data = .err (MyError.new "Boom") := by decide

/-- Rust unit test `trailing_comma_and_some_string`. -/
theorem test_trailing_segment :
    from_str "John,32,man".data = .err (MyError.new "Boom") := by decide

/-- A leading plus sign in the age segment is accepted by `parse::<usize>`. -/
theorem test_plus_age : from_str "John,+32".data = .ok ⟨"John".data, 32⟩ := by decide

/-- A minus sign in the age segment is rejected by `parse::<usize>`. -/
theorem test_minus_age :
    from_str "John,-32".data = .err (MyError.new "Boom") := by decide

/-- An age just past `usize::MAX` is rejected by `parse::<usize>`. -/
theorem test_overflow_age :
    from_str "John,18446744073709551616".data = .err (MyError.new "Boom") := by
  decide

/-! ### Structural lemmas about `splitComma` -/

theorem splitComma_ne_nil (l : List Char) : splitComma l ≠ [] := by
  induction l with
  | nil => simp [splitComma]
  | cons c cs ih =>
    simp only [splitComma]
    by_cases hc : c = ','
    · simp [hc]
    · rcases h : splitComma cs with _ | ⟨p, ps⟩ <;> simp [hc, h]

theorem splitComma_length (l : List Char) :
    (splitComma l).length = l.count ',' + 1 := by
  induction l with
  | nil => simp [splitComma]
  | cons c cs ih =>
    simp only [splitComma]
    by_cases hc : c = ','
    · simp [hc, List.count_cons, ih]
    · rcases h : splitComma cs with _ | ⟨p, ps⟩
      · exact absurd h (splitComma_ne_nil cs)
      · have := ih
        rw [h] at this
        simp only [List.length_cons] at this
        simp [hc, List.count_cons, this]

theorem splitComma_parts_no_comma (l : List Char) :
    ∀ part ∈ splitComma l, ',' ∉ part := by
  induction l with
  | nil =>
    intro part hp
    simp only [splitComma, List.mem_singleton] at hp
    subst hp
    simp
  | cons c cs ih =>
    intro part hp
    simp only [splitComma] at hp
    by_cases hc : c = ','
    · rw [if_pos hc] at hp
      rcases List.mem_cons.mp hp with hp | hp
      · subst hp; simp
      · exact ih part hp
    · rcases h : splitComma cs with _ | ⟨p, ps⟩
      · exact absurd h (splitComma_ne_nil cs)
      · rw [if_neg hc, h] at hp
        simp only [List.mem_cons] at hp
        rcases hp with hp | hp
        · have hpmem : p ∈ splitComma cs := by
            rw [h]; exact List.mem_cons_self p ps
          have hnp := ih p hpmem
          subst hp
          intro hmem
          rcases List.mem_cons.mp hmem with h1 | h1
          · exact hc h1.symm
          · exact hnp h1
        · exact ih part (by rw [h]; exact List.mem_cons_of_mem p hp)

theorem splitComma_of_no_comma (l : List Char) (h : ',' ∉ l) :
    splitComma l = [l] := by
  induction l with
  | nil => simp [splitComma]
  | cons c cs ih =>
    have hc : c ≠ ',' := fun hc => h (by simp [hc])
    have hcs : ',' ∉ cs := fun hm => h (List.mem_cons_of_mem c hm)
    simp only [splitComma]
    rw [if_neg (fun hh => hc hh), ih hcs]

theorem splitComma_append (n d : List Char) (hn : ',' ∉ n) (hd : ',' ∉ d) :
    splitComma (n ++ ',' :: d) = [n, d] := by
  induction n with
  | nil =>
    have hstep : splitComma (',' :: d) = [] :: splitComma d := by
      simp [splitComma]
    rw [List.nil_append, hstep, splitComma_of_no_comma d hd]
  | cons c n ih =>
    have hc : c ≠ ',' := fun hc => hn (by simp [hc])
    have hn2 : ',' ∉ n := fun hm => hn (List.mem_cons_of_mem c hm)
    simp only [List.cons_append, splitComma, List.append_eq]
    rw [if_neg (fun hh => hc hh), ih hn2]

/-! ### Lemmas about `parseUsize` -/

theorem digitsVal_foldl_ge (l : List Char) (acc : Nat) :
    acc ≤ l.foldl (fun a c => a * 10 + (c.toNat - '0'.toNat)) acc := by
  induction l generalizing acc with
  | nil => exact le_refl acc
  | cons c cs ih =>
    have h1 : acc ≤ acc * 10 + (c.toNat - '0'.toNat) := by omega
    exact le_trans h1 (ih (acc * 10 + (c.toNat - '0'.toNat)))

theorem parseDigitsAux_eq_foldl (l : List Char) (acc : Nat)
    (hdig : ∀ c ∈ l, isAsciiDigit c = true)
    (hlt : l.foldl (fun a c => a * 10 + (c.toNat - '0'.toNat)) acc < USIZE_BOUND) :
    parseDigitsAux l acc =
      some (l.foldl (fun a c => a * 10 + (c.toNat - '0'.toNat)) acc) := by
  induction l generalizing acc with
  | nil => rfl
  | cons c cs ih =>
    have hc : isAsciiDigit c = true := hdig c (List.mem_cons_self c cs)
    have hcs : ∀ x ∈ cs, isAsciiDigit x = true :=
      fun x hx => hdig x (List.mem_cons_of_mem c hx)
    simp only [List.foldl_cons] at hlt
    have hstep : acc * 10 + (c.toNat - '0'.toNat) < USIZE_BOUND :=
      lt_of_le_of_lt (digitsVal_foldl_ge cs (acc * 10 + (c.toNat - '0'.toNat))) hlt
    simp only [parseDigitsAux, digitVal, hc, if_pos, if_true, List.foldl_cons]
    rw [if_pos hstep]
    exact ih (acc * 10 + (c.toNat - '0'.toNat)) hcs hlt

theorem not_digit_comma : isAsciiDigit ',' = false := by decide

theorem not_digit_plus : isAsciiDigit '+' = false := by decide

theorem parseUsize_digits (d : List Char) (hne : d ≠ [])
    (hdig : ∀ c ∈ d, isAsciiDigit c = true) (hlt : digitsVal d < USIZE_BOUND) :
    parseUsize d = some (digitsVal d) := by
  rcases d with _ | ⟨c, cs⟩
  · exact absurd rfl hne
  · have hc : isAsciiDigit c = true := hdig c (List.mem_cons_self c cs)
    have hcp : c ≠ '+' := by
      intro h
      rw [h, not_digit_plus] at hc
      exact Bool.false_ne_true hc
    simp only [parseUsize]
    rw [if_neg hcp]
    exact parseDigitsAux_eq_foldl (c :: cs) 0 hdig hlt

/-! ### Characterization of `from_str` -/

theorem from_str_not_two (s : List Char) (h : (splitComma s).length ≠ 2) :
    from_str s = .err (MyError.new "Boom") := by
  by_cases hs : s.length = 0
  · simp only [from_str]
    rw [if_pos hs]
  · simp only [from_str]
    rw [if_neg hs, if_pos h]

theorem from_str_split_two (s n a : List Char) (h : splitComma s = [n, a]) :
    from_str s =
      (if n.length = 0 then ParseResult.err (MyError.new "Boom")
       else if a.length = 0 then ParseResult.err (MyError.new "Boom")
       else
         match parseUsize a with
         | none => ParseResult.err (MyError.new "Boom")
         | some x => ParseResult.ok ⟨n, x⟩) := by
  have hs : ¬s.length = 0 := by
    intro h0
    rw [List.length_eq_zero] at h0
    subst h0
    simp [splitComma] at h
  have h2 : ¬(([n, a] : List (List Char)).length ≠ 2) := by simp
  simp only [from_str, h]
  rw [if_neg hs, if_neg h2]
  simp only [List.getElem?_cons_zero, List.getElem?_cons_succ,
    List.getLast?_cons_cons, List.getLast?_singleton]
  by_cases h0 : n.length = 0
  · rw [if_pos h0, if_pos h0]
  · rw [if_neg h0, if_neg h0]
    by_cases h1 : a.length = 0
    · rw [if_pos h1, if_pos h1]
    · rw [if_neg h1, if_neg h1]
      cases hp : parseUsize a with
      | none => rfl
      | some x =>
        simp only [List.dropLast, List.getLast?_singleton]
        rw [if_neg h0]

theorem from_str_cases (s : List Char) :
    from_str s = .err (MyError.new "Boom") ∨
      ∃ n a x, splitComma s = [n, a] ∧ n ≠ [] ∧ a ≠ [] ∧
        parseUsize a = some x ∧ from_str s = .ok ⟨n, x⟩ := by
  by_cases h2 : (splitComma s).length = 2
  · obtain ⟨n, a, hna⟩ := List.length_eq_two.mp h2
    rw [from_str_split_two s n a hna]
    by_cases h0 : n.length = 0
    · left; rw [if_pos h0]
    · rw [if_neg h0]
      by_cases h1 : a.length = 0
      · left; rw [if_pos h1]
      · rw [if_neg h1]
        cases hp : parseUsize a with
        | none => left; rfl
        | some x =>
          right
          refine ⟨n, a, x, hna, ?_, ?_, hp, rfl⟩
          · intro hh; exact h0 (by rw [hh]; rfl)
          · intro hh; exact h1 (by rw [hh]; rfl)
  · left; exact from_str_not_two s h2

/-! ### The claims -/

/-- C1 (amended): for every input of the exact form `<name>,<digits>` where
`<name>` is non-empty and contains no comma, `<digits>` is a non-empty
string of ASCII digits, and the integer value of `<digits>` is at most
`usize::MAX` (i.e. below `2 ^ 64`), `from_str` succeeds and returns a
`Person` whose name is `<name>` verbatim and whose age is the integer
value of `<digits>`. -/
theorem wellformed_name_digits_ok (n d : List Char) (hn : n ≠ []) (hnc : ',' ∉ n)
    (hd : d ≠ []) (hdig : ∀ c ∈ d, isAsciiDigit c = true)
    (hb : digitsVal d < USIZE_BOUND) :
    from_str (n ++ ',' :: d) = .ok ⟨n, digitsVal d⟩ := by
  have hdc : ',' ∉ d := by
    intro hm
    have hx := hdig ',' hm
    rw [not_digit_comma] at hx
    exact Bool.false_ne_true hx
  have hsplit := splitComma_append n d hnc hdc
  have h0 : ¬n.length = 0 := fun hh => hn (List.length_eq_zero.mp hh)
  have h1 : ¬d.length = 0 := fun hh => hd (List.length_eq_zero.mp hh)
  rw [from_str_split_two _ n d hsplit, if_neg h0, if_neg h1,
    parseUsize_digits d hd hdig hb]

/-- Witness for C1 (amended) at the concrete input `"John,32"`. -/
theorem wellformed_name_digits_ok_witness :
    from_str ("John".data ++ ',' :: "32".data) =
      .ok ⟨"John".data, digitsVal "32".data⟩ :=
  wellformed_name_digits_ok "John".data "32".data (by decide) (by decide)
    (by decide) (by decide) (by decide)

/-- C1 counterexample: `"18446744073709551616"` (the value `2 ^ 64`) is a
non-empty string of ASCII digits — a valid non-negative integer literal —
yet `from_str "John,18446744073709551616"` fails, because Rust's
`parse::<usize>()` rejects values above `usize::MAX`. -/
theorem overflow_digits_counterexample :
    "John".data ≠ [] ∧ ',' ∉ "John".data ∧
      "18446744073709551616".data ≠ [] ∧
      (∀ c ∈ "18446744073709551616".data, isAsciiDigit c = true) ∧
      digitsVal "18446744073709551616".data = 18446744073709551616 ∧
      from_str ("John".data ++ ',' :: "18446744073709551616".data) =
        .err (MyError.new "Boom") := by
  decide

/-- C2: every input whose comma count differs from one (equivalently, whose
split has a number of parts different from two) is rejected; in particular
the empty string is rejected. -/
theorem comma_count_ne_one_err :
    (∀ s : List Char, s.count ',' ≠ 1 → (from_str s).isErr = true) ∧
      (from_str "".data).isErr = true := by
  constructor
  · intro s hcount
    have h2 : (splitComma s).length ≠ 2 := by
      rw [splitComma_length]
      omega
    rw [from_str_not_two s h2]
    rfl
  · decide

/-- Witness for C2 at the concrete comma-free input `"John"`. -/
theorem comma_count_ne_one_err_witness : (from_str "John".data).isErr = true :=
  comma_count_ne_one_err.1 "John".data (by decide)

/-- C3: with exactly one comma (split yields exactly two parts), an empty
part on either side of the comma is rejected. -/
theorem empty_segment_err (s n a : List Char) (h : splitComma s = [n, a])
    (hor : n = [] ∨ a = []) : (from_str s).isErr = true := by
  rw [from_str_split_two s n a h]
  rcases hor with hn | ha
  · subst hn
    rw [if_pos (show ([] : List Char).length = 0 from rfl)]
    rfl
  · subst ha
    by_cases h0 : n.length = 0
    · rw [if_pos h0]
      rfl
    · rw [if_neg h0, if_pos (show ([] : List Char).length = 0 from rfl)]
      rfl

/-- Witness for C3 at the concrete input `","`. -/
theorem empty_segment_err_witness : (from_str ",".data).isErr = true :=
  empty_segment_err ",".data [] [] (by decide) (Or.inl rfl)

/-- C4: with exactly two non-empty parts, an age part on which
`parse::<usize>` fails makes `from_str` fail. -/
theorem unparsable_age_err (s n a : List Char) (h : splitComma s = [n, a])
    (hn : n ≠ []) (ha : a ≠ []) (hp : parseUsize a = none) :
    (from_str s).isErr = true := by
  have h0 : ¬n.length = 0 := fun hh => hn (List.length_eq_zero.mp hh)
  have h1 : ¬a.length = 0 := fun hh => ha (List.length_eq_zero.mp hh)
  rw [from_str_split_two s n a h, if_neg h0, if_neg h1, hp]
  rfl

/-- Witness for C4 at the concrete input `"John,twenty"`. -/
theorem unparsable_age_err_witness : (from_str "John,twenty".data).isErr = true :=
  unparsable_age_err "John,twenty".data "John".data "twenty".data (by decide)
    (by decide) (by decide) (by decide)

/-- C5: every failure of `from_str` carries the same fixed message
`"Boom"`; malformed inputs are indistinguishable by the error's message. -/
theorem all_failures_same_message (s : List Char) (e : MyError)
    (h : from_str s = .err e) : e.details = "Boom" := by
  rcases from_str_cases s with hc | ⟨n, a, x, _, _, _, _, hc⟩
  · rw [hc] at h
    injection h with h2
    rw [← h2]
    rfl
  · rw [hc] at h
    exact ParseResult.noConfusion h

/-- Witness for C5 at the concrete input `""`. -/
theorem all_failures_same_message_witness : (MyError.new "Boom").details = "Boom" :=
  all_failures_same_message [] (MyError.new "Boom") (by decide)

/-- C6: `from_str` never panics: on every input its (total) result is an
`ok` or an `err`, never the `panicked` outcome — in particular the two
vector index accesses and the two pops are in bounds whenever reached. -/
theorem no_panic_total (s : List Char) : (from_str s).noPanic = true := by
  rcases from_str_cases s with hc | ⟨n, a, x, _, _, _, _, hc⟩ <;> rw [hc] <;> rfl

/-- C7: a successful parse returns a `Person` whose name is the (non-empty)
first part of the comma split and whose age is exactly the value produced
by `parse::<usize>` on the second part. -/
theorem success_invariants (s : List Char) (p : Person) (h : from_str s = .ok p) :
    p.name ≠ [] ∧
      ∃ n a, splitComma s = [n, a] ∧ p.name = n ∧ a ≠ [] ∧
        parseUsize a = some p.age := by
  rcases from_str_cases s with hc | ⟨n, a, x, hna, hn, ha, hp, hc⟩
  · rw [hc] at h
    exact ParseResult.noConfusion h
  · rw [hc] at h
    injection h with h2
    subst h2
    exact ⟨hn, n, a, hna, rfl, ha, hp⟩

/-- Witness for C7 at the concrete input `"John,32"`. -/
theorem success_invariants_witness :
    (Person.mk "John".data 32).name ≠ [] ∧
      ∃ n a, splitComma "John,32".data = [n, a] ∧
        (Person.mk "John".data 32).name = n ∧ a ≠ [] ∧
        parseUsize a = some (Person.mk "John".data 32).age :=
  success_invariants "John,32".data (Person.mk "John".data 32) (by decide)

/-- C8: `from_str` is a deterministic pure function of its input: equal
inputs give equal results (the embedding is a function, so freedom from
side effects holds by construction). -/
theorem deterministic_pure (s t : List Char) (h : s = t) :
    from_str s = from_str t := by rw [h]

/-- Witness for C8 at the concrete input `"John,32"`. -/
theorem deterministic_pure_witness :
    from_str "John,32".data = from_str "John,32".data :=
  deterministic_pure "John,32".data "John,32".data rfl

/-- C9: `parse::<usize>` accepts an optional leading `'+'` (which is not a
digit), so `"John,+32"` — whose age segment contains a non-digit — parses
successfully to name `"John"` and age `32`. -/
theorem plus_sign_accepted :
    isAsciiDigit '+' = false ∧
      from_str "John,+32".data = .ok ⟨"John".data, 32⟩ := by
  decide

/-- C10: a successful parse never returns a name containing a comma, since
the name is one part of the split on commas. -/
theorem name_no_comma (s : List Char) (p : Person) (h : from_str s = .ok p) :
    ',' ∉ p.name := by
  rcases from_str_cases s with hc | ⟨n, a, x, hna, hn, ha, hp, hc⟩
  · rw [hc] at h
    exact ParseResult.noConfusion h
  · rw [hc] at h
    injection h with h2
    subst h2
    exact splitComma_parts_no_comma s n (by rw [hna]; exact List.mem_cons_self n [a])

/-- Witness for C10 at the concrete input `"John,32"`. -/
theorem name_no_comma_witness : ',' ∉ (Person.mk "John".data 32).name :=
  name_no_comma "John,32".data (Person.mk "John".data 32) (by decide)

end FromStr
